import Mathlib

/-!
Verification of the `export-obsidian` exporter.

The program copies one markdown file plus the files it directly references
into a flat output directory.  This file gives a shallow embedding of the
script `export-obsidian.py`:

* strings are modelled as `List Char` (Python `str`),
* the filesystem as an association list from path to file content
  (`List (List Char × List Char)`) of the existing regular files,
* the regular-expression extraction (`re.findall` on the three fixed
  patterns of the script) as explicit character scanners with the exact
  leftmost, non-greedy backtracking semantics of the Python `re` engine
  (in particular `.` does not match a newline),
* the `pathlib` operations used by the script (`name`, `parent.name`,
  `parent`, `/`, `suffix`) as functions on `/`-separated component lists.

Side effects are made explicit: the run returns the ordered list of copy
operations (full output path with the copied content) and the list of
directories created, and warnings are returned as strings.
-/

/-- Python `str.split(sep)` for a one-character separator. -/
def splitOnC (sep : Char) : List Char → List (List Char)
  | [] => [[]]
  | c :: cs =>
    if c = sep then [] :: splitOnC sep cs
    else
      match splitOnC sep cs with
      | h :: t => (c :: h) :: t
      | [] => [[c]]

/-- Python `sep.join(parts)` for a one-character separator. -/
def joinSep (sep : Char) : List (List Char) → List Char
  | [] => []
  | [x] => x
  | x :: y :: xs => x ++ sep :: joinSep sep (y :: xs)

/-- `pathlib.Path(p).name`: the final `/`-separated component. -/
def pathName (p : List Char) : List Char :=
  (splitOnC '/' p).getLastD []

/-- `pathlib.Path(p).parent.name`: the component before the final one. -/
def parentName (p : List Char) : List Char :=
  ((splitOnC '/' p).dropLast).getLastD []

/-- `pathlib.Path(p).parent` as a path string (`.` for a bare filename). -/
def parentDir (p : List Char) : List Char :=
  match (splitOnC '/' p).dropLast with
  | [] => ['.']
  | cs => joinSep '/' cs

/-- Is `pre` a prefix of `l` (Python `str.startswith`)? -/
def isPre : List Char → List Char → Bool
  | [], _ => true
  | _ :: _, [] => false
  | c :: cs, d :: ds => c = d && isPre cs ds

/-- `pathlib`'s `base / r`: an absolute `r` wins, a `.` base disappears. -/
def joinPath (base r : List Char) : List Char :=
  if isPre ['/'] r then r
  else if base = ['.'] then r
  else base ++ '/' :: r

/-- First-match lookup in the filesystem association list. -/
def lookupFile : List (List Char × List Char) → List Char → Option (List Char)
  | [], _ => none
  | (p, c) :: rest, q => if p = q then some c else lookupFile rest q

/-- `Path(p).exists() and Path(p).is_file()`: the model keeps exactly the
existing regular files, so this is membership in the association list. -/
def isFile (fs : List (List Char × List Char)) (p : List Char) : Bool :=
  (lookupFile fs p).isSome

/-- Python `str.lower()` (ASCII, which is all the script compares). -/
def lowerC (l : List Char) : List Char := l.map Char.toLower

/-- `file_path.lower().endswith('.md')` from `find_linked_files`. -/
def endsMd (l : List Char) : Bool :=
  match (lowerC l).reverse with
  | 'd' :: 'm' :: '.' :: _ => true
  | _ => false

/-- The wiki-link extension rule of `find_linked_files`: append `.md`
unless the target already ends in `.md` case-insensitively. -/
def extendMd (l : List Char) : List Char :=
  if endsMd l then l else l ++ ['.', 'm', 'd']

/-- `match.startswith(('http://', 'https://', 'ftp://'))` from
`find_asset_references`. -/
def isRemote (l : List Char) : Bool :=
  isPre ('h' :: 't' :: 't' :: 'p' :: ':' :: '/' :: '/' :: []) l ||
  isPre ('h' :: 't' :: 't' :: 'p' :: 's' :: ':' :: '/' :: '/' :: []) l ||
  isPre ('f' :: 't' :: 'p' :: ':' :: '/' :: '/' :: []) l

/-- Index of the last occurrence of `c` (Python `str.rfind`), if any. -/
def rfindIdx (c : Char) : List Char → Option Nat
  | [] => none
  | x :: xs =>
    match rfindIdx c xs with
    | some i => some (i + 1)
    | none => if x = c then some 0 else none

/-- `pathlib.Path(p).suffix`: the extension of the final component;
empty unless the last dot has index `i` with `0 < i < len(name) - 1`. -/
def suffixName (p : List Char) : List Char :=
  let name := pathName p
  match rfindIdx '.' name with
  | some i => if 0 < i ∧ i + 1 < name.length then name.drop i else []
  | none => []

/-!
## The three `re.findall` scans

Patterns of the script (single capture group each):

* wiki links: `\[\[(.*?)(?:\|.*?)?\]\]`
* images: `!\[.*?\]\((.*?)\)`
* plain links: `(?<!!)\[.*?\]\((.*?)\)`

`findall` scans left to right, taking the leftmost match, restarting after
each match and advancing one character after each failed attempt.  `.`
matches any character except `'\n'`, `.*?` is non-greedy, `(?:...)?` is
greedy.  The capture helpers below return the captured group together with
the number of characters consumed from their input.
-/

/-- After `\](`: the non-greedy scan of `(.*?)\)` — capture up to the first
`)` with no newline in between.  Returns capture and consumed length. -/
def scanParen : List Char → Option (List Char × Nat)
  | [] => none
  | c :: cs =>
    if c = ')' then some ([], 1)
    else if c = '\n' then none
    else (scanParen cs).map (fun p => (c :: p.1, p.2 + 1))

/-- After `[` (or `![`): match `.*?\]\((.*?)\)`, returning the capture and
the consumed length (through the closing `)`).  When the inner paren scan
fails the non-greedy outer scan proceeds to the next `](`; a newline
anywhere scanned kills the attempt. -/
def linkCapture : List Char → Option (List Char × Nat)
  | [] => none
  | c :: cs =>
    if c = '\n' then none
    else if c = ']' then
      match cs with
      | '(' :: rest =>
        (match scanParen rest with
         | some p => some (p.1, p.2 + 2)
         | none => (linkCapture cs).map (fun p => (p.1, p.2 + 1)))
      | _ => (linkCapture cs).map (fun p => (p.1, p.2 + 1))
    else (linkCapture cs).map (fun p => (p.1, p.2 + 1))

/-- Inside a wiki link after `|`: the non-greedy scan of `.*?\]\]` — skip to
the first `]]` with no newline in between; returns the consumed length. -/
def skipToClose : List Char → Option Nat
  | [] => none
  | c :: cs =>
    if c = ']' then
      match cs with
      | ']' :: _ => some 2
      | _ => if c = '\n' then none else (skipToClose cs).map (· + 1)
    else if c = '\n' then none else (skipToClose cs).map (· + 1)

/-- After `[[`: match `(.*?)(?:\|.*?)?\]\]`, returning the capture and the
consumed length (through the closing `]]`). -/
def wikiCapture : List Char → Option (List Char × Nat)
  | [] => none
  | c :: cs =>
    if c = '\n' then none
    else if c = ']' then
      match cs with
      | ']' :: _ => some ([], 2)
      | _ => (wikiCapture cs).map (fun p => (c :: p.1, p.2 + 1))
    else if c = '|' then
      match skipToClose cs with
      | some n => some ([], n + 1)
      | none => (wikiCapture cs).map (fun p => (c :: p.1, p.2 + 1))
    else (wikiCapture cs).map (fun p => (c :: p.1, p.2 + 1))

/-- `re.findall(r'\[\[(.*?)(?:\|.*?)?\]\]', s)`. -/
def wikiFindAllAux (s : List Char) : List (List Char) :=
  match s with
  | [] => []
  | c :: cs =>
    if c = '[' ∧ cs.head? = some '[' then
      match wikiCapture cs.tail with
      | some (cap, n) => cap :: wikiFindAllAux (cs.drop (n + 1))
      | none => wikiFindAllAux cs
    else wikiFindAllAux cs
termination_by s.length
decreasing_by all_goals (simp [List.length_drop]) <;> omega

/-- `re.findall(r'!\[.*?\]\((.*?)\)', s)`. -/
def imageFindAllAux (s : List Char) : List (List Char) :=
  match s with
  | [] => []
  | c :: cs =>
    if c = '!' ∧ cs.head? = some '[' then
      match linkCapture cs.tail with
      | some (cap, n) => cap :: imageFindAllAux (cs.drop (n + 1))
      | none => imageFindAllAux cs
    else imageFindAllAux cs
termination_by s.length
decreasing_by all_goals (simp [List.length_drop]) <;> omega

/-- `re.findall(r'(?<!!)\[.*?\]\((.*?)\)', s)`; `prev` is the character
just before the scan position (for the `(?<!!)` look-behind). -/
def plainFindAllAux (prev : Option Char) (s : List Char) : List (List Char) :=
  match s with
  | [] => []
  | c :: cs =>
    if c = '[' then
      if prev = some '!' then plainFindAllAux (some '[') cs
      else
        match linkCapture cs with
        | some (cap, n) => cap :: plainFindAllAux (some ')') (cs.drop n)
        | none => plainFindAllAux (some '[') cs
    else plainFindAllAux (some c) cs
termination_by s.length
decreasing_by all_goals (simp [List.length_drop]) <;> omega

/-- The character preceding the current scan position after stepping over
`x` (the look-behind state of the plain-link scan): the last character of
`x`, or `p` when `x` is empty. -/
def lastOr (p : Option Char) : List Char → Option Char
  | [] => p
  | c :: cs => lastOr (some c) cs

/-!
## Reference resolution (`find_linked_files` / `find_asset_references`)
-/

/-- Outcome of processing one raw reference string. -/
inductive Resolution where
  | resolved : List Char → Resolution
  | warned : List Char → Resolution
  | skipped : Resolution
deriving DecidableEq

/-- `print(f"Warning: Linked file '{file_path}' not found.")`. -/
def linkedWarning (f : List Char) : List Char :=
  "Warning: Linked file \x27".data ++ f ++ "\x27 not found.".data

/-- `print(f"Warning: Referenced asset '{match}' not found.")`. -/
def assetWarning (f : List Char) : List Char :=
  "Warning: Referenced asset \x27".data ++ f ++ "\x27 not found.".data

/-- The per-match body of the loop in `find_linked_files`: extend with
`.md` if needed, then try the path as-is, then relative to the target
file's directory, else warn. -/
def resolveWikiRef (fs : List (List Char × List Char)) (base ref : List Char) :
    Resolution :=
  let f := extendMd ref
  if isFile fs f then .resolved f
  else if isFile fs (joinPath base f) then .resolved (joinPath base f)
  else .warned (linkedWarning f)

/-- The per-match body of the loop in `find_asset_references`: skip remote
URLs silently, otherwise try as-is, then relative to the target file's
directory, else warn.  No extension is ever appended. -/
def resolveAssetRef (fs : List (List Char × List Char)) (base ref : List Char) :
    Resolution :=
  if isRemote ref then .skipped
  else if isFile fs ref then .resolved ref
  else if isFile fs (joinPath base ref) then .resolved (joinPath base ref)
  else .warned (assetWarning ref)

/-- Run a per-reference resolution step over a list of raw references,
collecting the resolved paths and the emitted warnings, in order. -/
def collectResolved (step : List Char → Resolution) :
    List (List Char) → List (List Char) × List (List Char)
  | [] => ([], [])
  | r :: rs =>
    let rest := collectResolved step rs
    match step r with
    | .resolved p => (p :: rest.1, rest.2)
    | .warned m => (rest.1, m :: rest.2)
    | .skipped => rest

/-- `find_linked_files(target_file_path)`: resolved linked files and
warnings.  The file content is read from the filesystem model. -/
def find_linked_files (fs : List (List Char × List Char)) (target : List Char) :
    List (List Char) × List (List Char) :=
  let base := parentDir target
  let content := (lookupFile fs target).getD []
  collectResolved (resolveWikiRef fs base) (wikiFindAllAux content)

/-- `find_asset_references(target_file_path)`: resolved assets and
warnings.  Note `all_matches = image_matches + asset_matches`: all image
urls come before all plain-link urls regardless of document order. -/
def find_asset_references (fs : List (List Char × List Char)) (target : List Char) :
    List (List Char) × List (List Char) :=
  let base := parentDir target
  let content := (lookupFile fs target).getD []
  let allMatches := imageFindAllAux content ++ plainFindAllAux none content
  collectResolved (resolveAssetRef fs base) allMatches

/-!
## The flat copy planner (`copy_files_to_output`)
-/

/-- The collision rename: `name_parts = output_filename.split('.')`; with
an extension the new name is `{name_parts[0]}_{parent_dir}.{'.'.join(name_parts[1:])}`,
without one it is `{output_filename}_{parent_dir}`. -/
def disambiguateName (name parent : List Char) : List Char :=
  let parts := splitOnC '.' name
  if parts.length > 1 then
    parts.headD [] ++ '_' :: parent ++ '.' :: joinSep '.' parts.tail
  else name ++ '_' :: parent

/-- The collision rename applied to a source path: new name built from its
filename and its parent directory's name. -/
def disambOf (p : List Char) : List Char :=
  disambiguateName (pathName p) (parentName p)

/-- One copy loop of `copy_files_to_output` (the linked-file and asset
loops have identical bodies): threading the `used_filenames` set, pair
each source path with its chosen output filename.  Also returns the final
`used_filenames`. -/
def planPairs : List (List Char) → List (List Char) →
    List (List Char × List Char) × List (List Char)
  | [], used => ([], used)
  | p :: rest, used =>
    let out := if pathName p ∈ used then disambOf p else pathName p
    let r := planPairs rest (out :: used)
    ((p, out) :: r.1, r.2)

/-- All output filenames of one run in processing order: the target file's
own name is claimed first, then the linked files, then the assets. -/
def planOutputs (target : List Char) (linked assets : List (List Char)) :
    List (List Char) :=
  let tName := pathName target
  let r1 := planPairs linked [tName]
  let r2 := planPairs assets r1.2
  tName :: r1.1.map Prod.snd ++ r2.1.map Prod.snd

/-- `copy_files_to_output`: the ordered copy operations (full output path,
copied byte content).  `shutil.copy2` overwrites an existing destination,
so a later write to the same path wins. -/
def copy_files_to_output (fs : List (List Char × List Char)) (target : List Char)
    (linked assets : List (List Char)) (outDir : List Char) :
    List (List Char × List Char) :=
  let tName := pathName target
  let r1 := planPairs linked [tName]
  let r2 := planPairs assets r1.2
  (joinPath outDir tName, (lookupFile fs target).getD []) ::
    (r1.1 ++ r2.1).map (fun pr => (joinPath outDir pr.2, (lookupFile fs pr.1).getD []))

/-!
## The orchestrator (`parse_arguments` + `main`)
-/

/-- The summary printed by `main`; the target count is always 1 and the
total is `1 + linked + assets`. -/
structure Summary where
  linked : Nat
  assets : Nat
deriving DecidableEq

/-- Result of one invocation: either `sys.exit(message)` (terminates with
non-zero status, message on stderr) or a completed run with its summary
and the ordered copy operations. -/
inductive RunResult where
  | exited : List Char → RunResult
  | completed : Summary → List (List Char × List Char) → RunResult
deriving DecidableEq

/-- `sys.exit(f"Error: Target file '{args.target_file}' does not exist.")`. -/
def missingMsg (target : List Char) : List Char :=
  "Error: Target file \x27".data ++ target ++ "\x27 does not exist.".data

/-- `sys.exit(f"Error: Target file '{args.target_file}' is not a markdown file.")`. -/
def notMarkdownMsg (target : List Char) : List Char :=
  "Error: Target file \x27".data ++ target ++ "\x27 is not a markdown file.".data

/-- The whole program: validation (`parse_arguments`), extraction,
resolution, copy.  Returns the run result together with the list of
directories created (`output_path.mkdir` runs only after validation). -/
def runMain (fs : List (List Char × List Char)) (target outDir : List Char) :
    RunResult × List (List Char) :=
  if (lookupFile fs target).isNone then
    (.exited (missingMsg target), [])
  else if lowerC (suffixName target) ≠ ['.', 'm', 'd'] then
    (.exited (notMarkdownMsg target), [])
  else
    let linked := (find_linked_files fs target).1
    let assets := (find_asset_references fs target).1
    (.completed ⟨linked.length, assets.length⟩
      (copy_files_to_output fs target linked assets outDir), [outDir])

/-- The final content of the output directory: the last write to each full
path wins (`shutil.copy2` overwrites). -/
def dirAfter (writes : List (List Char × List Char)) (p : List Char) :
    Option (List Char) :=
  lookupFile writes.reverse p

/-!
## A model of markdown documents for the extraction contract

A document is a sequence of elements: plain text, wiki links
(`[[target]]`, `[[target|display]]`), images (`![alt](url)`) and plain
markdown links (`[text](url)`).  `render` produces the document text the
extractor runs on.
-/

inductive Elem where
  | text : List Char → Elem
  | wiki : List Char → Elem
  | wikiDisp : List Char → List Char → Elem
  | image : List Char → List Char → Elem
  | link : List Char → List Char → Elem
deriving DecidableEq

def renderElem : Elem → List Char
  | .text s => s
  | .wiki t => '[' :: '[' :: t ++ [']', ']']
  | .wikiDisp t d => '[' :: '[' :: t ++ '|' :: d ++ [']', ']']
  | .image a u => '!' :: '[' :: a ++ ']' :: '(' :: u ++ [')']
  | .link x u => '[' :: x ++ ']' :: '(' :: u ++ [')']

def render : List Elem → List Char
  | [] => []
  | e :: es => renderElem e ++ render es

/-- A link payload (target, display text, alt text, link text or url) is
well formed when it contains none of the regex metacharacters and no
newline, so the non-greedy matches close exactly where intended. -/
def okPayload (l : List Char) : Bool :=
  l.all fun c =>
    c ≠ '[' && c ≠ ']' && c ≠ '(' && c ≠ ')' && c ≠ '|' && c ≠ '!' && c ≠ '\n'

/-- Plain text is well formed when it cannot open a link match: no `[`
and no `!`. -/
def okText (l : List Char) : Bool :=
  l.all fun c => c ≠ '[' && c ≠ '!'

def okElem : Elem → Bool
  | .text s => okText s
  | .wiki t => okPayload t
  | .wikiDisp t d => okPayload t && okPayload d
  | .image a u => okPayload a && okPayload u
  | .link x u => okPayload x && okPayload u

def isWikiElem : Elem → Bool
  | .wiki _ => true
  | .wikiDisp _ _ => true
  | _ => false

/-- Does the rest of the document start with a newline (or end)?  After a
wiki link this keeps the plain-link scan (whose look-behind does not know
about wiki syntax) from running into a later image or link. -/
def startsNL : List Elem → Bool
  | [] => true
  | .text s :: _ => s.head? = some '\n'
  | _ => false

/-- Well-formed document: every element well formed, and every wiki link
followed by a newline (or the end of the document). -/
def wfDoc : List Elem → Bool
  | [] => true
  | e :: es => okElem e && (!isWikiElem e || startsNL es) && wfDoc es

def wikiTargets : List Elem → List (List Char)
  | [] => []
  | .wiki t :: es => t :: wikiTargets es
  | .wikiDisp t _ :: es => t :: wikiTargets es
  | _ :: es => wikiTargets es

def imageUrls : List Elem → List (List Char)
  | [] => []
  | .image _ u :: es => u :: imageUrls es
  | _ :: es => imageUrls es

def linkUrls : List Elem → List (List Char)
  | [] => []
  | .link _ u :: es => u :: linkUrls es
  | _ :: es => linkUrls es

/-- Number of wiki links of the document (the `N` of the contract). -/
def countWiki (doc : List Elem) : Nat := (wikiTargets doc).length

/-- Number of markdown/image links of the document (the `M` of the contract). -/
def countMd (doc : List Elem) : Nat := (imageUrls doc).length + (linkUrls doc).length

/-!
# Helper lemmas
-/

theorem splitOnC_ne_nil (sep : Char) (l : List Char) : splitOnC sep l ≠ [] := by
  induction l with
  | nil => simp [splitOnC]
  | cons c cs ih =>
    simp only [splitOnC]
    by_cases h : c = sep
    · simp [h]
    · simp only [if_neg h]
      cases hs : splitOnC sep cs with
      | nil => simp
      | cons a t => simp

theorem joinSep_splitOnC (sep : Char) (l : List Char) :
    joinSep sep (splitOnC sep l) = l := by
  induction l with
  | nil => rfl
  | cons c cs ih =>
    simp only [splitOnC]
    by_cases h : c = sep
    · rw [if_pos h]
      cases hs : splitOnC sep cs with
      | nil => exact absurd hs (splitOnC_ne_nil _ _)
      | cons a t =>
        rw [hs] at ih
        simp only [joinSep]
        simp [ih, h]
    · rw [if_neg h]
      cases hs : splitOnC sep cs with
      | nil => exact absurd hs (splitOnC_ne_nil _ _)
      | cons a t =>
        rw [hs] at ih
        cases t with
        | nil =>
          simp only [joinSep] at ih ⊢
          simp [ih]
        | cons b t2 =>
          simp only [joinSep] at ih ⊢
          simp [ih]

theorem splitOnC_of_not_mem {sep : Char} {l : List Char} (h : sep ∉ l) :
    splitOnC sep l = [l] := by
  induction l with
  | nil => rfl
  | cons c cs ih =>
    rw [List.mem_cons, not_or] at h
    have hc : ¬ c = sep := fun hc => h.1 hc.symm
    simp only [splitOnC, if_neg hc, ih h.2]

theorem splitOnC_of_mem {sep : Char} {l : List Char} (h : sep ∈ l) :
    (splitOnC sep l).headD [] = l.takeWhile (fun x => x ≠ sep) ∧
    joinSep sep (splitOnC sep l).tail = (l.dropWhile (fun x => x ≠ sep)).tail ∧
    1 < (splitOnC sep l).length := by
  induction l with
  | nil => cases h
  | cons c cs ih =>
    by_cases hc : c = sep
    · simp only [splitOnC, if_pos hc]
      refine ⟨?_, ?_, ?_⟩
      · simp [List.takeWhile_cons, hc]
      · simp only [List.tail_cons, joinSep_splitOnC]
        simp [List.dropWhile_cons, hc]
      · cases hs : splitOnC sep cs with
        | nil => exact absurd hs (splitOnC_ne_nil _ _)
        | cons a t => simp
    · have hmem : sep ∈ cs := by
        rcases List.mem_cons.mp h with h1 | h2
        · exact absurd h1.symm hc
        · exact h2
      obtain ⟨ih1, ih2, ih3⟩ := ih hmem
      simp only [splitOnC, if_neg hc]
      cases hs : splitOnC sep cs with
      | nil => exact absurd hs (splitOnC_ne_nil _ _)
      | cons a t =>
        rw [hs] at ih1 ih2 ih3
        simp only [List.headD_cons] at ih1
        refine ⟨?_, ?_, ?_⟩
        · simp [List.takeWhile_cons, hc, ih1]
        · simp only [List.tail_cons] at ih2 ⊢
          rw [List.dropWhile_cons]
          simp [hc, ih2]
        · simp only [List.length_cons] at ih3 ⊢
          omega

theorem mem_splitOnC {sep : Char} {l x : List Char} (hx : x ∈ splitOnC sep l) :
    sep ∉ x := by
  induction l generalizing x with
  | nil =>
    simp only [splitOnC, List.mem_singleton] at hx
    subst hx; simp
  | cons c cs ih =>
    by_cases hc : c = sep
    · simp only [splitOnC] at hx
      rw [if_pos hc] at hx
      rcases List.mem_cons.mp hx with h | h
      · subst h; simp
      · exact ih h
    · simp only [splitOnC, if_neg hc] at hx
      cases hs : splitOnC sep cs with
      | nil => exact absurd hs (splitOnC_ne_nil _ _)
      | cons a t =>
        rw [hs] at hx
        rcases List.mem_cons.mp hx with h | h
        · subst h
          intro hm
          rcases List.mem_cons.mp hm with h1 | h1
          · exact hc h1.symm
          · exact ih (by rw [hs]; exact List.mem_cons_self a t) h1
        · exact ih (by rw [hs]; exact List.mem_cons_of_mem a h)

theorem okPayload_spec {t : List Char} (h : okPayload t = true) :
    ∀ c ∈ t, c ≠ '[' ∧ c ≠ ']' ∧ c ≠ '(' ∧ c ≠ ')' ∧ c ≠ '|' ∧ c ≠ '!' ∧ c ≠ '\n' := by
  intro c hc
  rw [okPayload, List.all_eq_true] at h
  have hx := h c hc
  simp only [Bool.and_eq_true, decide_eq_true_eq, ne_eq] at hx
  tauto

theorem okText_spec {t : List Char} (h : okText t = true) :
    ∀ c ∈ t, c ≠ '[' ∧ c ≠ '!' := by
  intro c hc
  rw [okText, List.all_eq_true] at h
  have hx := h c hc
  simp only [Bool.and_eq_true, decide_eq_true_eq, ne_eq] at hx
  tauto

theorem drop_shape (t rest : List Char) (a b : Char) :
    (t ++ a :: b :: rest).drop (t.length + 2) = rest := by
  have h1 : t ++ a :: b :: rest = (t ++ [a, b]) ++ rest := by simp
  have h2 : t.length + 2 = (t ++ [a, b]).length := by simp
  rw [h1, h2, List.drop_left]

theorem drop_shape2 (a u rest : List Char) (x y z : Char) :
    (a ++ x :: y :: (u ++ z :: rest)).drop (a.length + u.length + 3) = rest := by
  have h1 : a ++ x :: y :: (u ++ z :: rest) = (a ++ x :: y :: (u ++ [z])) ++ rest := by
    simp
  have h2 : a.length + u.length + 3 = (a ++ x :: y :: (u ++ [z])).length := by
    simp; omega
  rw [h1, h2, List.drop_left]

theorem drop_shape3 (t d rest : List Char) (x y z : Char) :
    (t ++ x :: (d ++ y :: z :: rest)).drop (t.length + d.length + 3) = rest := by
  have h1 : t ++ x :: (d ++ y :: z :: rest) = (t ++ x :: (d ++ [y, z])) ++ rest := by
    simp
  have h2 : t.length + d.length + 3 = (t ++ x :: (d ++ [y, z])).length := by
    simp; omega
  rw [h1, h2, List.drop_left]

theorem wikiCapture_clean (t rest : List Char)
    (ht : ∀ c ∈ t, c ≠ ']' ∧ c ≠ '|' ∧ c ≠ '\n') :
    wikiCapture (t ++ ']' :: ']' :: rest) = some (t, t.length + 2) := by
  induction t with
  | nil => simp [wikiCapture]
  | cons c ts ih =>
    obtain ⟨h1, h2, h3⟩ := ht c (List.mem_cons_self c ts)
    have ih2 := ih (fun x hx => ht x (List.mem_cons_of_mem c hx))
    rw [List.cons_append]
    simp only [wikiCapture, if_neg h3, if_neg h1, if_neg h2, ih2]
    simp
    try omega

theorem skipToClose_clean (d rest : List Char)
    (hd : ∀ c ∈ d, c ≠ ']' ∧ c ≠ '\n') :
    skipToClose (d ++ ']' :: ']' :: rest) = some (d.length + 2) := by
  induction d with
  | nil => simp [skipToClose]
  | cons c ds ih =>
    obtain ⟨h1, h2⟩ := hd c (List.mem_cons_self c ds)
    have ih2 := ih (fun x hx => hd x (List.mem_cons_of_mem c hx))
    rw [List.cons_append]
    simp only [skipToClose, if_neg h1, if_neg h2, ih2]
    simp
    try omega

theorem wikiCapture_disp_clean (t d rest : List Char)
    (ht : ∀ c ∈ t, c ≠ ']' ∧ c ≠ '|' ∧ c ≠ '\n')
    (hd : ∀ c ∈ d, c ≠ ']' ∧ c ≠ '\n') :
    wikiCapture (t ++ '|' :: (d ++ ']' :: ']' :: rest)) =
      some (t, t.length + d.length + 3) := by
  induction t with
  | nil =>
    rw [List.nil_append]
    simp only [wikiCapture, skipToClose_clean d rest hd]
    simp
    try omega
  | cons c ts ih =>
    obtain ⟨h1, h2, h3⟩ := ht c (List.mem_cons_self c ts)
    have ih2 := ih (fun x hx => ht x (List.mem_cons_of_mem c hx))
    rw [List.cons_append]
    simp only [wikiCapture, if_neg h3, if_neg h1, if_neg h2, ih2]
    simp
    try omega

theorem wikiScan_skip (x rest : List Char) (hx : ∀ c ∈ x, c ≠ '[') :
    wikiFindAllAux (x ++ rest) = wikiFindAllAux rest := by
  induction x with
  | nil => rfl
  | cons c xs ih =>
    have h1 : c ≠ '[' := hx c (List.mem_cons_self c xs)
    rw [List.cons_append]
    simp only [wikiFindAllAux]
    rw [if_neg (by simp [h1])]
    exact ih (fun y hy => hx y (List.mem_cons_of_mem c hy))

theorem wikiScan_wiki (t rest : List Char)
    (ht : ∀ c ∈ t, c ≠ ']' ∧ c ≠ '|' ∧ c ≠ '\n') :
    wikiFindAllAux ('[' :: '[' :: (t ++ ']' :: ']' :: rest)) =
      t :: wikiFindAllAux rest := by
  have hcap := wikiCapture_clean t rest ht
  simp only [wikiFindAllAux]
  rw [if_pos (by simp)]
  simp only [List.tail_cons, hcap]
  rw [List.drop_succ_cons, drop_shape]

theorem wikiScan_disp (t d rest : List Char)
    (ht : ∀ c ∈ t, c ≠ ']' ∧ c ≠ '|' ∧ c ≠ '\n')
    (hd : ∀ c ∈ d, c ≠ ']' ∧ c ≠ '\n') :
    wikiFindAllAux ('[' :: '[' :: (t ++ '|' :: (d ++ ']' :: ']' :: rest))) =
      t :: wikiFindAllAux rest := by
  have hcap := wikiCapture_disp_clean t d rest ht hd
  simp only [wikiFindAllAux]
  rw [if_pos (by simp)]
  simp only [List.tail_cons, hcap]
  rw [List.drop_succ_cons, drop_shape3]

theorem wikiScan_image (a u rest : List Char)
    (ha : ∀ c ∈ a, c ≠ '[') (hu : ∀ c ∈ u, c ≠ '[') :
    wikiFindAllAux ('!' :: '[' :: (a ++ ']' :: '(' :: (u ++ ')' :: rest))) =
      wikiFindAllAux rest := by
  have h1 : wikiFindAllAux ('!' :: '[' :: (a ++ ']' :: '(' :: (u ++ ')' :: rest))) =
      wikiFindAllAux ('[' :: (a ++ ']' :: '(' :: (u ++ ')' :: rest))) :=
    wikiScan_skip ['!'] _ (by intro c hc; simp only [List.mem_singleton] at hc; subst hc; decide)
  rw [h1]
  simp only [wikiFindAllAux]
  rw [if_neg ?hc]
  case hc =>
    cases a with
    | nil => simp
    | cons c as =>
      have := ha c (List.mem_cons_self c as)
      simp [this]
  have h2 : a ++ ']' :: '(' :: (u ++ ')' :: rest) =
      (a ++ ']' :: '(' :: (u ++ [')'])) ++ rest := by simp
  rw [h2, wikiScan_skip]
  intro c hc
  simp only [List.mem_append, List.mem_cons, List.mem_singleton] at hc
  rcases hc with h | h | h | h | h
  · exact ha c h
  · subst h; decide
  · subst h; decide
  · exact hu c h
  · rcases h with h | h
    · subst h; decide
    · exact absurd h (List.not_mem_nil c)

theorem wikiScan_link (x u rest : List Char)
    (hx : ∀ c ∈ x, c ≠ '[') (hu : ∀ c ∈ u, c ≠ '[') :
    wikiFindAllAux ('[' :: (x ++ ']' :: '(' :: (u ++ ')' :: rest))) =
      wikiFindAllAux rest := by
  simp only [wikiFindAllAux]
  rw [if_neg ?hc]
  case hc =>
    cases x with
    | nil => simp
    | cons c xs =>
      have := hx c (List.mem_cons_self c xs)
      simp [this]
  have h2 : x ++ ']' :: '(' :: (u ++ ')' :: rest) =
      (x ++ ']' :: '(' :: (u ++ [')'])) ++ rest := by simp
  rw [h2, wikiScan_skip]
  intro c hc
  simp only [List.mem_append, List.mem_cons, List.mem_singleton] at hc
  rcases hc with h | h | h | h | h
  · exact hx c h
  · subst h; decide
  · subst h; decide
  · exact hu c h
  · rcases h with h | h
    · subst h; decide
    · exact absurd h (List.not_mem_nil c)

theorem wikiPass (doc : List Elem) (h : wfDoc doc = true) :
    wikiFindAllAux (render doc) = wikiTargets doc := by
  induction doc with
  | nil => simp [render, wikiTargets, wikiFindAllAux]
  | cons e es ih =>
    rw [wfDoc] at h
    simp only [Bool.and_eq_true] at h
    obtain ⟨⟨hok, _⟩, hwf⟩ := h
    have ih2 := ih hwf
    cases e with
    | text s =>
      simp only [okElem] at hok
      simp only [render, renderElem, wikiTargets]
      rw [wikiScan_skip s (render es) (fun c hc => (okText_spec hok c hc).1)]
      exact ih2
    | wiki t =>
      simp only [okElem] at hok
      have ht := okPayload_spec hok
      simp only [render, renderElem, wikiTargets]
      have hsh : '[' :: '[' :: t ++ [']', ']'] ++ render es
          = '[' :: '[' :: (t ++ ']' :: ']' :: render es) := by simp
      rw [hsh, wikiScan_wiki t (render es)
        (fun c hc => ⟨(ht c hc).2.1, (ht c hc).2.2.2.2.1, (ht c hc).2.2.2.2.2.2⟩), ih2]
    | wikiDisp t d =>
      simp only [okElem, Bool.and_eq_true] at hok
      have ht := okPayload_spec hok.1
      have hd := okPayload_spec hok.2
      simp only [render, renderElem, wikiTargets]
      have hsh : '[' :: '[' :: t ++ '|' :: d ++ [']', ']'] ++ render es
          = '[' :: '[' :: (t ++ '|' :: (d ++ ']' :: ']' :: render es)) := by simp
      rw [hsh, wikiScan_disp t d (render es)
        (fun c hc => ⟨(ht c hc).2.1, (ht c hc).2.2.2.2.1, (ht c hc).2.2.2.2.2.2⟩)
        (fun c hc => ⟨(hd c hc).2.1, (hd c hc).2.2.2.2.2.2⟩), ih2]
    | image a u =>
      simp only [okElem, Bool.and_eq_true] at hok
      simp only [render, renderElem, wikiTargets]
      have hsh : '!' :: '[' :: a ++ ']' :: '(' :: u ++ [')'] ++ render es
          = '!' :: '[' :: (a ++ ']' :: '(' :: (u ++ ')' :: render es)) := by simp
      rw [hsh, wikiScan_image a u (render es)
        (fun c hc => (okPayload_spec hok.1 c hc).1)
        (fun c hc => (okPayload_spec hok.2 c hc).1)]
      exact ih2
    | link x u =>
      simp only [okElem, Bool.and_eq_true] at hok
      simp only [render, renderElem, wikiTargets]
      have hsh : '[' :: x ++ ']' :: '(' :: u ++ [')'] ++ render es
          = '[' :: (x ++ ']' :: '(' :: (u ++ ')' :: render es)) := by simp
      rw [hsh, wikiScan_link x u (render es)
        (fun c hc => (okPayload_spec hok.1 c hc).1)
        (fun c hc => (okPayload_spec hok.2 c hc).1)]
      exact ih2

theorem scanParen_clean (u rest : List Char)
    (hu : ∀ c ∈ u, c ≠ ')' ∧ c ≠ '\n') :
    scanParen (u ++ ')' :: rest) = some (u, u.length + 1) := by
  induction u with
  | nil => simp [scanParen]
  | cons c us ih =>
    obtain ⟨h1, h2⟩ := hu c (List.mem_cons_self c us)
    have ih2 := ih (fun x hx => hu x (List.mem_cons_of_mem c hx))
    rw [List.cons_append]
    simp only [scanParen, if_neg h1, if_neg h2, ih2]
    simp
    try omega

theorem linkCapture_clean (a u rest : List Char)
    (ha : ∀ c ∈ a, c ≠ ']' ∧ c ≠ '\n')
    (hu : ∀ c ∈ u, c ≠ ')' ∧ c ≠ '\n') :
    linkCapture (a ++ ']' :: '(' :: (u ++ ')' :: rest)) =
      some (u, a.length + u.length + 3) := by
  induction a with
  | nil =>
    rw [List.nil_append]
    simp only [linkCapture, scanParen_clean u rest hu]
    simp
    try omega
  | cons c as ih =>
    obtain ⟨h1, h2⟩ := ha c (List.mem_cons_self c as)
    have ih2 := ih (fun x hx => ha x (List.mem_cons_of_mem c hx))
    rw [List.cons_append]
    simp only [linkCapture, if_neg h1, if_neg h2, ih2]
    simp
    try omega

theorem imageScan_skip (x rest : List Char) (hx : ∀ c ∈ x, c ≠ '!') :
    imageFindAllAux (x ++ rest) = imageFindAllAux rest := by
  induction x with
  | nil => rfl
  | cons c xs ih =>
    have h1 : c ≠ '!' := hx c (List.mem_cons_self c xs)
    rw [List.cons_append]
    simp only [imageFindAllAux]
    rw [if_neg (by simp [h1])]
    exact ih (fun y hy => hx y (List.mem_cons_of_mem c hy))

theorem imageScan_image (a u rest : List Char)
    (ha : ∀ c ∈ a, c ≠ ']' ∧ c ≠ '\n')
    (hu : ∀ c ∈ u, c ≠ ')' ∧ c ≠ '\n') :
    imageFindAllAux ('!' :: '[' :: (a ++ ']' :: '(' :: (u ++ ')' :: rest))) =
      u :: imageFindAllAux rest := by
  have hcap := linkCapture_clean a u rest ha hu
  simp only [imageFindAllAux]
  rw [if_pos (by simp)]
  simp only [List.tail_cons, hcap]
  rw [List.drop_succ_cons, drop_shape2]

theorem imagePass (doc : List Elem) (h : wfDoc doc = true) :
    imageFindAllAux (render doc) = imageUrls doc := by
  induction doc with
  | nil => simp [render, imageUrls, imageFindAllAux]
  | cons e es ih =>
    rw [wfDoc] at h
    simp only [Bool.and_eq_true] at h
    obtain ⟨⟨hok, _⟩, hwf⟩ := h
    have ih2 := ih hwf
    cases e with
    | text s =>
      simp only [render, renderElem, imageUrls]
      rw [imageScan_skip s (render es) (fun c hc => (okText_spec hok c hc).2)]
      exact ih2
    | wiki t =>
      simp only [okElem] at hok
      simp only [render, imageUrls]
      rw [imageScan_skip (renderElem (.wiki t)) (render es) ?hb, ih2]
      case hb =>
        intro c hc
        simp only [renderElem, List.mem_append, List.mem_cons] at hc
        rcases hc with (h | h | h) | (h | h | h)
        · subst h; decide
        · subst h; decide
        · exact (okPayload_spec hok c h).2.2.2.2.2.1
        · subst h; decide
        · subst h; decide
        · exact absurd h (List.not_mem_nil c)
    | wikiDisp t d =>
      simp only [okElem, Bool.and_eq_true] at hok
      simp only [render, imageUrls]
      rw [imageScan_skip (renderElem (.wikiDisp t d)) (render es) ?hb, ih2]
      case hb =>
        intro c hc
        simp only [renderElem, List.mem_append, List.mem_cons] at hc
        rcases hc with ((h | h | h) | h | h) | (h | h | h)
        · subst h; decide
        · subst h; decide
        · exact (okPayload_spec hok.1 c h).2.2.2.2.2.1
        · subst h; decide
        · exact (okPayload_spec hok.2 c h).2.2.2.2.2.1
        · subst h; decide
        · subst h; decide
        · exact absurd h (List.not_mem_nil c)
    | image a u =>
      simp only [okElem, Bool.and_eq_true] at hok
      have ha := okPayload_spec hok.1
      have hu := okPayload_spec hok.2
      simp only [render, renderElem, imageUrls]
      have hsh : '!' :: '[' :: a ++ ']' :: '(' :: u ++ [')'] ++ render es
          = '!' :: '[' :: (a ++ ']' :: '(' :: (u ++ ')' :: render es)) := by simp
      rw [hsh, imageScan_image a u (render es)
        (fun c hc => ⟨(ha c hc).2.1, (ha c hc).2.2.2.2.2.2⟩)
        (fun c hc => ⟨(hu c hc).2.2.2.1, (hu c hc).2.2.2.2.2.2⟩), ih2]
    | link x u =>
      simp only [okElem, Bool.and_eq_true] at hok
      simp only [render, imageUrls]
      rw [imageScan_skip (renderElem (.link x u)) (render es) ?hb, ih2]
      case hb =>
        intro c hc
        simp only [renderElem, List.mem_append, List.mem_cons] at hc
        rcases hc with ((h | h) | h | h | h) | (h | h)
        · subst h; decide
        · exact (okPayload_spec hok.1 c h).2.2.2.2.2.1
        · subst h; decide
        · subst h; decide
        · exact (okPayload_spec hok.2 c h).2.2.2.2.2.1
        · subst h; decide
        · exact absurd h (List.not_mem_nil c)

theorem lastOr_append_single (p : Option Char) (l : List Char) (c : Char) :
    lastOr p (l ++ [c]) = some c := by
  induction l generalizing p with
  | nil => rfl
  | cons d ds ih =>
    rw [List.cons_append]
    simp only [lastOr]
    exact ih (some d)

theorem lastOr_ne {x : List Char} (hx : ∀ c ∈ x, c ≠ '!') :
    ∀ p, p ≠ some '!' → lastOr p x ≠ some '!' := by
  induction x with
  | nil => intro p hp; exact hp
  | cons c cs ih =>
    intro p hp
    simp only [lastOr]
    refine ih (fun y hy => hx y (List.mem_cons_of_mem c hy)) (some c) ?_
    have := hx c (List.mem_cons_self c cs)
    simp [this]

theorem plainScan_skip (x rest : List Char) (hx : ∀ c ∈ x, c ≠ '[') :
    ∀ p, plainFindAllAux p (x ++ rest) = plainFindAllAux (lastOr p x) rest := by
  induction x with
  | nil => intro p; rfl
  | cons c xs ih =>
    intro p
    rw [List.cons_append]
    simp only [plainFindAllAux, lastOr]
    rw [if_neg (hx c (List.mem_cons_self c xs))]
    exact ih (fun y hy => hx y (List.mem_cons_of_mem c hy)) (some c)

theorem linkCapture_append_none (y z : List Char)
    (hy : ∀ c ∈ y, c ≠ '\n' ∧ c ≠ ']') (hz : linkCapture z = none) :
    linkCapture (y ++ z) = none := by
  induction y with
  | nil => simpa
  | cons c ys ih =>
    obtain ⟨h1, h2⟩ := hy c (List.mem_cons_self c ys)
    rw [List.cons_append]
    simp only [linkCapture, if_neg h1, if_neg h2]
    rw [ih (fun x hx => hy x (List.mem_cons_of_mem c hx))]
    rfl

theorem linkCapture_close_none (rest : List Char)
    (hr : rest = [] ∨ rest.head? = some '\n') :
    linkCapture (']' :: ']' :: rest) = none := by
  rcases hr with h | h
  · subst h; simp [linkCapture]
  · cases rest with
    | nil => simp at h
    | cons r rs =>
      simp only [List.head?_cons, Option.some_inj] at h
      subst h
      simp [linkCapture]

theorem plainAux_step_bracket (p : Option Char) (cs : List Char) (hp : p ≠ some '!') :
    plainFindAllAux p ('[' :: cs) =
      match linkCapture cs with
      | some (cap, n) => cap :: plainFindAllAux (some ')') (cs.drop n)
      | none => plainFindAllAux (some '[') cs := by
  simp only [plainFindAllAux]
  rw [if_pos trivial, if_neg hp]

theorem plainAux_step_bang (cs : List Char) :
    plainFindAllAux (some '!') ('[' :: cs) = plainFindAllAux (some '[') cs := by
  simp only [plainFindAllAux]
  rw [if_pos trivial]
  rfl

theorem plainAux_step_char (p : Option Char) (c : Char) (cs : List Char) (hc : c ≠ '[') :
    plainFindAllAux p (c :: cs) = plainFindAllAux (some c) cs := by
  simp only [plainFindAllAux]
  rw [if_neg hc]

theorem plainScan_wiki (t rest : List Char) (p : Option Char)
    (hp : p ≠ some '!')
    (ht : ∀ c ∈ t, c ≠ ']' ∧ c ≠ '\n' ∧ c ≠ '[') :
    rest = [] ∨ rest.head? = some '\n' →
    plainFindAllAux p ('[' :: '[' :: (t ++ ']' :: ']' :: rest)) =
      plainFindAllAux (some ']') rest := by
  intro hr
  have hclose := linkCapture_close_none rest hr
  have hnone2 : linkCapture (t ++ ']' :: ']' :: rest) = none :=
    linkCapture_append_none t _ (fun c hc => ⟨(ht c hc).2.1, (ht c hc).1⟩) hclose
  have hnone : linkCapture ('[' :: (t ++ ']' :: ']' :: rest)) = none := by
    have hsh : ('[' :: t) ++ (']' :: ']' :: rest) = '[' :: (t ++ ']' :: ']' :: rest) := by
      simp
    rw [← hsh]
    refine linkCapture_append_none _ _ ?_ hclose
    intro c hc
    rcases List.mem_cons.mp hc with h | h
    · subst h; exact ⟨by decide, by decide⟩
    · exact ⟨(ht c h).2.1, (ht c h).1⟩
  have step3 : plainFindAllAux (some '[') (t ++ ']' :: ']' :: rest) =
      plainFindAllAux (some ']') rest := by
    have hsh : t ++ ']' :: ']' :: rest = (t ++ [']', ']']) ++ rest := by simp
    rw [hsh, plainScan_skip (t ++ [']', ']']) rest ?hx (some '[')]
    · have h2 : t ++ [']', ']'] = (t ++ [']']) ++ [']'] := by simp
      rw [h2, lastOr_append_single]
    case hx =>
      intro c hc
      rcases List.mem_append.mp hc with h | h
      · exact (ht c h).2.2
      · rcases List.mem_cons.mp h with h1 | h1
        · subst h1; decide
        · rcases List.mem_cons.mp h1 with h2 | h2
          · subst h2; decide
          · exact absurd h2 (List.not_mem_nil c)
  have step2 : plainFindAllAux (some '[') ('[' :: (t ++ ']' :: ']' :: rest)) =
      plainFindAllAux (some ']') rest := by
    rw [plainAux_step_bracket (some '[') _ (by decide), hnone2]
    exact step3
  rw [plainAux_step_bracket p _ hp, hnone]
  exact step2

theorem plainScan_disp (t d rest : List Char) (p : Option Char)
    (hp : p ≠ some '!')
    (ht : ∀ c ∈ t, c ≠ ']' ∧ c ≠ '\n' ∧ c ≠ '[')
    (hd : ∀ c ∈ d, c ≠ ']' ∧ c ≠ '\n' ∧ c ≠ '[') :
    rest = [] ∨ rest.head? = some '\n' →
    plainFindAllAux p ('[' :: '[' :: (t ++ '|' :: (d ++ ']' :: ']' :: rest))) =
      plainFindAllAux (some ']') rest := by
  intro hr
  have hclose := linkCapture_close_none rest hr
  have hnone2 : linkCapture (t ++ '|' :: (d ++ ']' :: ']' :: rest)) = none := by
    have hsh : (t ++ '|' :: d) ++ (']' :: ']' :: rest) =
        t ++ '|' :: (d ++ ']' :: ']' :: rest) := by simp
    rw [← hsh]
    refine linkCapture_append_none _ _ ?_ hclose
    intro c hc
    rcases List.mem_append.mp hc with h | h
    · exact ⟨(ht c h).2.1, (ht c h).1⟩
    · rcases List.mem_cons.mp h with h1 | h1
      · subst h1; exact ⟨by decide, by decide⟩
      · exact ⟨(hd c h1).2.1, (hd c h1).1⟩
  have hnone : linkCapture ('[' :: (t ++ '|' :: (d ++ ']' :: ']' :: rest))) = none := by
    have hsh : ('[' :: t ++ '|' :: d) ++ (']' :: ']' :: rest) =
        '[' :: (t ++ '|' :: (d ++ ']' :: ']' :: rest)) := by simp
    rw [← hsh]
    refine linkCapture_append_none _ _ ?_ hclose
    intro c hc
    rcases List.mem_append.mp hc with h | h
    · rcases List.mem_cons.mp h with h1 | h1
      · subst h1; exact ⟨by decide, by decide⟩
      · exact ⟨(ht c h1).2.1, (ht c h1).1⟩
    · rcases List.mem_cons.mp h with h1 | h1
      · subst h1; exact ⟨by decide, by decide⟩
      · exact ⟨(hd c h1).2.1, (hd c h1).1⟩
  have step3 : plainFindAllAux (some '[') (t ++ '|' :: (d ++ ']' :: ']' :: rest)) =
      plainFindAllAux (some ']') rest := by
    have hsh : t ++ '|' :: (d ++ ']' :: ']' :: rest) =
        (t ++ '|' :: (d ++ [']', ']'])) ++ rest := by simp
    rw [hsh, plainScan_skip _ rest ?hx (some '[')]
    · have h2 : t ++ '|' :: (d ++ [']', ']']) = (t ++ '|' :: (d ++ [']'])) ++ [']'] := by
        simp
      rw [h2, lastOr_append_single]
    case hx =>
      intro c hc
      rcases List.mem_append.mp hc with h | h
      · exact (ht c h).2.2
      · rcases List.mem_cons.mp h with h1 | h1
        · subst h1; decide
        · rcases List.mem_append.mp h1 with h2 | h2
          · exact (hd c h2).2.2
          · rcases List.mem_cons.mp h2 with h3 | h3
            · subst h3; decide
            · rcases List.mem_cons.mp h3 with h4 | h4
              · subst h4; decide
              · exact absurd h4 (List.not_mem_nil c)
  have step2 : plainFindAllAux (some '[')
      ('[' :: (t ++ '|' :: (d ++ ']' :: ']' :: rest))) =
      plainFindAllAux (some ']') rest := by
    rw [plainAux_step_bracket (some '[') _ (by decide), hnone2]
    exact step3
  rw [plainAux_step_bracket p _ hp, hnone]
  exact step2

theorem plainScan_image (a u rest : List Char) (p : Option Char)
    (ha : ∀ c ∈ a, c ≠ '[') (hu : ∀ c ∈ u, c ≠ '[') :
    plainFindAllAux p ('!' :: '[' :: (a ++ ']' :: '(' :: (u ++ ')' :: rest))) =
      plainFindAllAux (some ')') rest := by
  rw [plainAux_step_char p '!' _ (by decide), plainAux_step_bang]
  have hsh : a ++ ']' :: '(' :: (u ++ ')' :: rest) =
      (a ++ ']' :: '(' :: (u ++ [')'])) ++ rest := by simp
  rw [hsh, plainScan_skip _ rest ?hx (some '[')]
  · have h2 : a ++ ']' :: '(' :: (u ++ [')']) = (a ++ ']' :: '(' :: u) ++ [')'] := by
      simp
    rw [h2, lastOr_append_single]
  case hx =>
    intro c hc
    rcases List.mem_append.mp hc with h | h
    · exact ha c h
    · rcases List.mem_cons.mp h with h1 | h1
      · subst h1; decide
      · rcases List.mem_cons.mp h1 with h2 | h2
        · subst h2; decide
        · rcases List.mem_append.mp h2 with h3 | h3
          · exact hu c h3
          · rcases List.mem_cons.mp h3 with h4 | h4
            · subst h4; decide
            · exact absurd h4 (List.not_mem_nil c)

theorem plainScan_link (x u rest : List Char) (p : Option Char)
    (hp : p ≠ some '!')
    (hx : ∀ c ∈ x, c ≠ ']' ∧ c ≠ '\n')
    (hu : ∀ c ∈ u, c ≠ ')' ∧ c ≠ '\n') :
    plainFindAllAux p ('[' :: (x ++ ']' :: '(' :: (u ++ ')' :: rest))) =
      u :: plainFindAllAux (some ')') rest := by
  rw [plainAux_step_bracket p _ hp, linkCapture_clean x u rest hx hu]
  show u :: plainFindAllAux (some ')')
      ((x ++ ']' :: '(' :: (u ++ ')' :: rest)).drop (x.length + u.length + 3)) = _
  rw [drop_shape2]

theorem startsNL_render (es : List Elem) (h : startsNL es = true) :
    render es = [] ∨ (render es).head? = some '\n' := by
  cases es with
  | nil => left; rfl
  | cons e es2 =>
    cases e with
    | text s =>
      simp only [startsNL, decide_eq_true_eq] at h
      right
      simp only [render, renderElem]
      cases s with
      | nil => simp at h
      | cons c cs =>
        simp only [List.head?_cons, Option.some_inj] at h
        subst h
        simp
    | wiki t => simp [startsNL] at h
    | wikiDisp t d => simp [startsNL] at h
    | image a u => simp [startsNL] at h
    | link x u => simp [startsNL] at h

theorem plainPass (doc : List Elem) (h : wfDoc doc = true) :
    ∀ p, p ≠ some '!' → plainFindAllAux p (render doc) = linkUrls doc := by
  induction doc with
  | nil => intro p hp; simp [render, linkUrls, plainFindAllAux]
  | cons e es ih =>
    rw [wfDoc] at h
    simp only [Bool.and_eq_true] at h
    obtain ⟨⟨hok, hnl⟩, hwf⟩ := h
    have ih2 := ih hwf
    intro p hp
    cases e with
    | text s =>
      simp only [okElem] at hok
      simp only [render, renderElem, linkUrls]
      rw [plainScan_skip s (render es) (fun c hc => (okText_spec hok c hc).1) p]
      exact ih2 _ (lastOr_ne (fun c hc => (okText_spec hok c hc).2) p hp)
    | wiki t =>
      simp only [okElem] at hok
      have ht := okPayload_spec hok
      have hsn : startsNL es = true := by simpa [isWikiElem] using hnl
      simp only [render, renderElem, linkUrls]
      have hsh : '[' :: '[' :: t ++ [']', ']'] ++ render es
          = '[' :: '[' :: (t ++ ']' :: ']' :: render es) := by simp
      rw [hsh, plainScan_wiki t (render es) p hp
        (fun c hc => ⟨(ht c hc).2.1, (ht c hc).2.2.2.2.2.2, (ht c hc).1⟩)
        (startsNL_render es hsn)]
      exact ih2 _ (by decide)
    | wikiDisp t d =>
      simp only [okElem, Bool.and_eq_true] at hok
      have ht := okPayload_spec hok.1
      have hd := okPayload_spec hok.2
      have hsn : startsNL es = true := by simpa [isWikiElem] using hnl
      simp only [render, renderElem, linkUrls]
      have hsh : '[' :: '[' :: t ++ '|' :: d ++ [']', ']'] ++ render es
          = '[' :: '[' :: (t ++ '|' :: (d ++ ']' :: ']' :: render es)) := by simp
      rw [hsh, plainScan_disp t d (render es) p hp
        (fun c hc => ⟨(ht c hc).2.1, (ht c hc).2.2.2.2.2.2, (ht c hc).1⟩)
        (fun c hc => ⟨(hd c hc).2.1, (hd c hc).2.2.2.2.2.2, (hd c hc).1⟩)
        (startsNL_render es hsn)]
      exact ih2 _ (by decide)
    | image a u =>
      simp only [okElem, Bool.and_eq_true] at hok
      simp only [render, renderElem, linkUrls]
      have hsh : '!' :: '[' :: a ++ ']' :: '(' :: u ++ [')'] ++ render es
          = '!' :: '[' :: (a ++ ']' :: '(' :: (u ++ ')' :: render es)) := by simp
      rw [hsh, plainScan_image a u (render es) p
        (fun c hc => (okPayload_spec hok.1 c hc).1)
        (fun c hc => (okPayload_spec hok.2 c hc).1)]
      exact ih2 _ (by decide)
    | link x u =>
      simp only [okElem, Bool.and_eq_true] at hok
      have hx := okPayload_spec hok.1
      have hu := okPayload_spec hok.2
      simp only [render, renderElem, linkUrls]
      have hsh : '[' :: x ++ ']' :: '(' :: u ++ [')'] ++ render es
          = '[' :: (x ++ ']' :: '(' :: (u ++ ')' :: render es)) := by simp
      rw [hsh, plainScan_link x u (render es) p hp
        (fun c hc => ⟨(hx c hc).2.1, (hx c hc).2.2.2.2.2.2⟩)
        (fun c hc => ⟨(hu c hc).2.2.2.1, (hu c hc).2.2.2.2.2.2⟩)]
      rw [ih2 _ (by decide)]

theorem planPairs_used_subset (files used : List (List Char)) :
    ∀ x ∈ used, x ∈ (planPairs files used).2 := by
  induction files generalizing used with
  | nil => intro x hx; simpa [planPairs] using hx
  | cons p rest ih =>
    intro x hx
    simp only [planPairs]
    exact ih _ x (List.mem_cons_of_mem _ hx)

theorem planPairs_mem_used (files : List (List Char)) :
    ∀ used, ∀ x ∈ (planPairs files used).2,
      x ∈ used ∨ ∃ p ∈ files, x = pathName p ∨ x = disambOf p := by
  induction files with
  | nil => intro used x hx; left; simpa [planPairs] using hx
  | cons p rest ih =>
    intro used x hx
    simp only [planPairs] at hx
    rcases ih _ x hx with h | ⟨q, hq, h⟩
    · rcases List.mem_cons.mp h with h1 | h1
      · right
        refine ⟨p, List.mem_cons_self p rest, ?_⟩
        by_cases hm : pathName p ∈ used
        · rw [if_pos hm] at h1; right; exact h1
        · rw [if_neg hm] at h1; left; exact h1
      · left; exact h1
    · right; exact ⟨q, List.mem_cons_of_mem p hq, h⟩

theorem planPairs_outs_in_used (files : List (List Char)) :
    ∀ used, ∀ pr ∈ (planPairs files used).1, pr.2 ∈ (planPairs files used).2 := by
  induction files with
  | nil => intro used pr hpr; simp [planPairs] at hpr
  | cons p rest ih =>
    intro used pr hpr
    simp only [planPairs] at hpr ⊢
    rcases List.mem_cons.mp hpr with h | h
    · subst h
      exact planPairs_used_subset rest _ _ (List.mem_cons_self _ _)
    · exact ih _ pr h

theorem planPairs_nodup (files : List (List Char)) :
    ∀ used,
    (∀ p ∈ files, disambOf p ∉ used) →
    (∀ p ∈ files, ∀ q ∈ files, disambOf p ≠ pathName q) →
    (files.map disambOf).Nodup →
    ((planPairs files used).1.map Prod.snd).Nodup ∧
      ∀ x ∈ (planPairs files used).1.map Prod.snd, x ∉ used := by
  induction files with
  | nil => intro used hu hb hd; simp [planPairs]
  | cons p rest ih =>
    intro used hu hb hd
    simp only [List.map_cons, List.nodup_cons] at hd
    have hout : (if pathName p ∈ used then disambOf p else pathName p) ∉ used := by
      by_cases hm : pathName p ∈ used
      · rw [if_pos hm]; exact hu p (List.mem_cons_self p rest)
      · rw [if_neg hm]; exact hm
    have ihres := ih ((if pathName p ∈ used then disambOf p else pathName p) :: used)
      ?hu2 ?hb2 hd.2
    case hu2 =>
      intro q hq
      intro hmem
      rcases List.mem_cons.mp hmem with h | h
      · by_cases hm : pathName p ∈ used
        · rw [if_pos hm] at h
          exact hd.1 (h ▸ List.mem_map_of_mem disambOf hq)
        · rw [if_neg hm] at h
          exact hb q (List.mem_cons_of_mem p hq) p (List.mem_cons_self p rest) h
      · exact hu q (List.mem_cons_of_mem p hq) h
    case hb2 =>
      intro q hq r hr
      exact hb q (List.mem_cons_of_mem p hq) r (List.mem_cons_of_mem p hr)
    obtain ⟨ihnd, ihnotin⟩ := ihres
    constructor
    · simp only [planPairs, List.map_cons, List.nodup_cons]
      refine ⟨?_, ihnd⟩
      intro hmem
      exact ihnotin _ hmem (List.mem_cons_self _ _)
    · intro x hx
      simp only [planPairs, List.map_cons] at hx
      rcases List.mem_cons.mp hx with h | h
      · subst h; exact hout
      · intro hxu
        exact ihnotin x h (List.mem_cons_of_mem _ hxu)

theorem disambiguateName_no_dot {name : List Char} (parent : List Char)
    (h : '.' ∉ name) :
    disambiguateName name parent = name ++ '_' :: parent := by
  rw [disambiguateName, splitOnC_of_not_mem h]
  simp

theorem disambiguateName_dot {name : List Char} (parent : List Char)
    (h : '.' ∈ name) :
    disambiguateName name parent =
      name.takeWhile (fun x => x ≠ '.') ++ '_' :: parent ++
        '.' :: (name.dropWhile (fun x => x ≠ '.')).tail := by
  obtain ⟨h1, h2, h3⟩ := splitOnC_of_mem h
  rw [disambiguateName]
  simp only [if_pos h3]
  cases hs : splitOnC '.' name with
  | nil => exact absurd hs (splitOnC_ne_nil _ _)
  | cons a t =>
    rw [hs] at h1 h2
    simp only [List.headD_cons, List.tail_cons] at h1 h2
    rw [List.headD_cons, List.tail_cons, h1, h2]

theorem endsMd_append_md (l : List Char) : endsMd (l ++ ['.', 'm', 'd']) = true := by
  have h0 : lowerC ['.', 'm', 'd'] = ['.', 'm', 'd'] := by decide
  have h1 : lowerC (l ++ ['.', 'm', 'd']) = lowerC l ++ ['.', 'm', 'd'] := by
    simp only [lowerC] at h0 ⊢
    rw [List.map_append, h0]
  rw [endsMd, h1, List.reverse_append]
  simp

theorem extendMd_of_ends {l : List Char} (h : endsMd l = true) : extendMd l = l := by
  rw [extendMd, if_pos h]

theorem extendMd_of_not_ends {l : List Char} (h : endsMd l = false) :
    extendMd l = l ++ ['.', 'm', 'd'] := by
  rw [extendMd, if_neg (by simp [h])]

theorem endsMd_extendMd (l : List Char) : endsMd (extendMd l) = true := by
  cases h : endsMd l with
  | true => rw [extendMd_of_ends h]; exact h
  | false => rw [extendMd_of_not_ends h]; exact endsMd_append_md l

theorem extendMd_idem (l : List Char) : extendMd (extendMd l) = extendMd l :=
  extendMd_of_ends (endsMd_extendMd l)

theorem collectResolved_cons_resolved {step : List Char → Resolution}
    {r q : List Char} (rs : List (List Char)) (h : step r = .resolved q) :
    collectResolved step (r :: rs) =
      (q :: (collectResolved step rs).1, (collectResolved step rs).2) := by
  simp [collectResolved, h]

theorem collectResolved_cons_warned {step : List Char → Resolution}
    {r m : List Char} (rs : List (List Char)) (h : step r = .warned m) :
    collectResolved step (r :: rs) =
      ((collectResolved step rs).1, m :: (collectResolved step rs).2) := by
  simp [collectResolved, h]

theorem collectResolved_cons_skipped {step : List Char → Resolution}
    {r : List Char} (rs : List (List Char)) (h : step r = .skipped) :
    collectResolved step (r :: rs) = collectResolved step rs := by
  simp [collectResolved, h]

theorem planPairs_length (files : List (List Char)) :
    ∀ used, (planPairs files used).1.length = files.length := by
  induction files with
  | nil => intro used; simp [planPairs]
  | cons p rest ih =>
    intro used
    simp only [planPairs, List.length_cons, ih]

theorem copy_writes_shape (fs : List (List Char × List Char))
    (target : List Char) (linked assets : List (List Char)) (outDir : List Char) :
    copy_files_to_output fs target linked assets outDir =
      ((pathName target, (lookupFile fs target).getD []) ::
        ((planPairs linked [pathName target]).1 ++
          (planPairs assets (planPairs linked [pathName target]).2).1).map
          (fun pr => (pr.2, (lookupFile fs pr.1).getD []))).map
        (fun pr => (joinPath outDir pr.1, pr.2)) := by
  simp only [copy_files_to_output, List.map_cons, List.map_map]
  rfl

/-!
# Claim theorems
-/

/-- C3: the collision rename splits the filename at the first `.`: with an
extension the new name is `{stem}_{parent}.{rest}`, without one it is
`{name}_{parent}`; and for two resolved files sharing a filename (distinct
from the target file's name) with parent directories A and B, processed in
that order, the first claims the bare name and the second receives the name
with its own parent directory B embedded in the stem. -/
theorem C3_rename_split (name parent t f1 f2 : List Char)
    (hshare : pathName f1 = pathName f2)
    (hne : pathName f1 ≠ pathName t) :
    ('.' ∈ name → disambiguateName name parent =
      name.takeWhile (fun x => x ≠ '.') ++ '_' :: parent ++
        '.' :: (name.dropWhile (fun x => x ≠ '.')).tail) ∧
    ('.' ∉ name → disambiguateName name parent = name ++ '_' :: parent) ∧
    planOutputs t [f1, f2] [] = [pathName t, pathName f1, disambOf f2] := by
  refine ⟨fun h => disambiguateName_dot parent h,
    fun h => disambiguateName_no_dot parent h, ?_⟩
  simp only [planOutputs, planPairs]
  rw [if_neg (by simp [hne]), if_pos (by simp [List.mem_cons]; exact Or.inl hshare.symm)]
  simp

/-- C3 witness: `A/n.md` and `B/n.md` exported next to target `t.md`: the
first keeps `n.md`, the second becomes `n_B.md`. -/
theorem C3_witness :
    planOutputs "t.md".data ["A/n.md".data, "B/n.md".data] [] =
      ["t.md".data, "n.md".data, "n_B.md".data] := by
  have h := (C3_rename_split "n.md".data "B".data "t.md".data "A/n.md".data
    "B/n.md".data (by decide) (by decide)).2.2
  exact h.trans (by decide)

/-- C4: the wiki-link extension rule appends `.md` exactly once when the
target does not already end in `.md` under the case-insensitive check,
leaves a target already ending in `.md` (any case) unchanged, and its
result always passes the check, so the rule never double-suffixes. -/
theorem C4_md_extension_rule (t : List Char) :
    (endsMd t = false → extendMd t = t ++ ['.', 'm', 'd']) ∧
    (endsMd t = true → extendMd t = t) ∧
    endsMd (extendMd t) = true ∧
    extendMd (extendMd t) = extendMd t :=
  ⟨fun h => extendMd_of_not_ends h, fun h => extendMd_of_ends h,
    endsMd_extendMd t, extendMd_idem t⟩

/-- C4 witness: `note` gains the suffix, `Note.MD` is left alone. -/
theorem C4_witness :
    extendMd "note".data = "note.md".data ∧
    extendMd "Note.MD".data = "Note.MD".data := by
  constructor
  · rw [(C4_md_extension_rule "note".data).1 (by decide)]
    decide
  · exact (C4_md_extension_rule "Note.MD".data).2.1 (by decide)

/-- C5: a markdown-link/image reference whose raw string begins with
`http://`, `https://` or `ftp://` is skipped before any filesystem lookup
(the outcome does not depend on the filesystem or the base directory),
contributes neither a resolved asset nor a warning, and no `.md` is ever
appended: a non-remote reference is only ever resolved to the raw string
as-is, to its base-relative join, or warned about under its raw name. -/
theorem C5_remote_markdown_skipped (fs fs2 : List (List Char × List Char))
    (base base2 ref : List Char) (rs : List (List Char)) :
    (isRemote ref = true → resolveAssetRef fs base ref = .skipped) ∧
    (isRemote ref = true →
      resolveAssetRef fs base ref = resolveAssetRef fs2 base2 ref) ∧
    (isRemote ref = true →
      collectResolved (resolveAssetRef fs base) (ref :: rs) =
        collectResolved (resolveAssetRef fs base) rs) ∧
    (isRemote ref = false →
      resolveAssetRef fs base ref = .resolved ref ∨
      resolveAssetRef fs base ref = .resolved (joinPath base ref) ∨
      resolveAssetRef fs base ref = .warned (assetWarning ref)) := by
  refine ⟨?_, ?_, ?_, ?_⟩
  · intro h; rw [resolveAssetRef, if_pos h]
  · intro h; rw [resolveAssetRef, if_pos h, resolveAssetRef, if_pos h]
  · intro h
    exact collectResolved_cons_skipped rs (by rw [resolveAssetRef, if_pos h])
  · intro h
    rw [resolveAssetRef, if_neg (by simp [h])]
    by_cases h1 : isFile fs ref = true
    · rw [if_pos h1]; left; rfl
    · rw [if_neg (by simp [h1])]
      by_cases h2 : isFile fs (joinPath base ref) = true
      · rw [if_pos h2]; right; left; rfl
      · rw [if_neg (by simp [h2])]; right; right; rfl

/-- C5 witness: a remote image url is skipped and contributes nothing. -/
theorem C5_witness :
    resolveAssetRef [("v/a.png".data, "x".data)] "v".data
      "https://cdn.example.com/a.png".data = .skipped ∧
    collectResolved (resolveAssetRef [("v/a.png".data, "x".data)] "v".data)
      ["https://cdn.example.com/a.png".data] = ([], []) := by
  have h := C5_remote_markdown_skipped [("v/a.png".data, "x".data)] [] "v".data []
    "https://cdn.example.com/a.png".data []
  exact ⟨h.1 (by decide), (h.2.2.1 (by decide)).trans (by decide)⟩

/-- C6: when the target file does not exist, or exists but its `pathlib`
suffix is not `.md` case-insensitively, the run terminates via `sys.exit`
with the corresponding descriptive message (non-zero status) before any
side effect: no directory is created and no copy is performed. -/
theorem C6_preflight_validation (fs : List (List Char × List Char))
    (target outDir : List Char) :
    (lookupFile fs target = none →
      runMain fs target outDir = (.exited (missingMsg target), [])) ∧
    ((lookupFile fs target).isSome = true →
      lowerC (suffixName target) ≠ ['.', 'm', 'd'] →
      runMain fs target outDir = (.exited (notMarkdownMsg target), [])) := by
  constructor
  · intro h
    rw [runMain, if_pos (by simp [h])]
  · intro h1 h2
    obtain ⟨c, hc⟩ := Option.isSome_iff_exists.mp h1
    rw [runMain, hc, if_neg (by simp), if_pos h2]

/-- C6 witness: a missing target and a `.txt` target both exit with the
matching message, create no directory and copy nothing. -/
theorem C6_witness :
    runMain [] "ghost.md".data "out".data =
      (.exited (missingMsg "ghost.md".data), []) ∧
    runMain [("notes.txt".data, "hello".data)] "notes.txt".data "out".data =
      (.exited (notMarkdownMsg "notes.txt".data), []) := by
  constructor
  · exact (C6_preflight_validation [] "ghost.md".data "out".data).1 (by decide)
  · exact (C6_preflight_validation [("notes.txt".data, "hello".data)]
      "notes.txt".data "out".data).2 (by decide) (by decide)

/-- C7: wiki-link resolution tries the `.md`-extended string as a path
as-is first and only on failure tries it relative to the target file's
directory; the first success wins; when neither candidate exists the
reference produces a warning naming the extended string, contributes no
resolved file, and the remaining references are still processed. -/
theorem C7_two_step_resolution (fs : List (List Char × List Char))
    (base ref m : List Char) (rs : List (List Char)) :
    (isFile fs (extendMd ref) = true →
      resolveWikiRef fs base ref = .resolved (extendMd ref)) ∧
    (isFile fs (extendMd ref) = false →
      isFile fs (joinPath base (extendMd ref)) = true →
      resolveWikiRef fs base ref = .resolved (joinPath base (extendMd ref))) ∧
    (isFile fs (extendMd ref) = false →
      isFile fs (joinPath base (extendMd ref)) = false →
      resolveWikiRef fs base ref = .warned (linkedWarning (extendMd ref))) ∧
    (resolveWikiRef fs base ref = .warned m →
      collectResolved (resolveWikiRef fs base) (ref :: rs) =
        ((collectResolved (resolveWikiRef fs base) rs).1,
          m :: (collectResolved (resolveWikiRef fs base) rs).2)) := by
  refine ⟨?_, ?_, ?_, ?_⟩
  · intro h
    simp only [resolveWikiRef]
    rw [if_pos h]
  · intro h1 h2
    simp only [resolveWikiRef]
    rw [if_neg (by simp [h1]), if_pos h2]
  · intro h1 h2
    simp only [resolveWikiRef]
    rw [if_neg (by simp [h1]), if_neg (by simp [h2])]
  · intro h
    exact collectResolved_cons_warned rs h

/-- C7 witness: the Missing Page scenario — `[[Missing Page]]` with no
`vault/Missing Page.md` on disk warns naming `Missing Page.md`. -/
theorem C7_witness :
    resolveWikiRef [("vault/note.md".data, "x".data)] "vault".data
      "Missing Page".data = .warned (linkedWarning "Missing Page.md".data) := by
  have h := (C7_two_step_resolution [("vault/note.md".data, "x".data)] "vault".data
    "Missing Page".data [] []).2.2.1 (by decide) (by decide)
  exact h.trans (by decide)

/-- C9 counterexample: the claim says `.md` is appended to every wiki-link
target that begins with a remote scheme, but a target already ending in
`.md` — such as `http://x.md` — is left unchanged by the extension rule. -/
theorem C9_counterexample :
    isRemote "http://x.md".data = true ∧
    extendMd "http://x.md".data = "http://x.md".data ∧
    extendMd "http://x.md".data ≠ "http://x.md".data ++ ['.', 'm', 'd'] := by
  decide

/-- C9 (amended): the remote-URL skip exists only in the markdown-link and
image path.  A wiki-link target beginning with `http://`, `https://` or
`ftp://` is processed like any other target: it is never skipped, `.md` is
appended exactly when the target does not already end in `.md`
case-insensitively, the two-step resolution is attempted, and when neither
candidate exists a warning naming the extended string is emitted — while
the same string in markdown-link/image position is skipped silently. -/
theorem C9_wiki_remote_not_skipped (fs : List (List Char × List Char))
    (base ref : List Char) (hrem : isRemote ref = true) :
    resolveWikiRef fs base ref ≠ .skipped ∧
    (endsMd ref = false → extendMd ref = ref ++ ['.', 'm', 'd']) ∧
    (endsMd ref = true → extendMd ref = ref) ∧
    (isFile fs (extendMd ref) = false →
      isFile fs (joinPath base (extendMd ref)) = false →
      resolveWikiRef fs base ref = .warned (linkedWarning (extendMd ref))) ∧
    resolveAssetRef fs base ref = .skipped := by
  refine ⟨?_, fun h => extendMd_of_not_ends h, fun h => extendMd_of_ends h, ?_, ?_⟩
  · simp only [resolveWikiRef]
    by_cases h1 : isFile fs (extendMd ref) = true
    · rw [if_pos h1]; simp
    · rw [if_neg (by simp [h1])]
      by_cases h2 : isFile fs (joinPath base (extendMd ref)) = true
      · rw [if_pos h2]; simp
      · rw [if_neg (by simp [h2])]; simp
  · intro h1 h2
    simp only [resolveWikiRef]
    rw [if_neg (by simp [h1]), if_neg (by simp [h2])]
  · rw [resolveAssetRef, if_pos hrem]

/-- C9 witness: a remote wiki-link target gets `.md` appended, resolution
is attempted and fails, and the warning names the suffixed string. -/
theorem C9_witness :
    resolveWikiRef [] "v".data "http://example.com/page".data =
      .warned (linkedWarning "http://example.com/page.md".data) := by
  have h := (C9_wiki_remote_not_skipped [] "v".data "http://example.com/page".data
    (by decide)).2.2.2.1 (by decide) (by decide)
  exact h.trans (by decide)

/-- C10: a file resolved twice is copied twice — under its bare name and
then under the parent-disambiguated name (when the document wiki-links the
target itself, the target copy holds the bare name and the linked copy is
disambiguated); every copy is performed and counted (the write list always
has length `1 + linked + assets`), and a later write to an already-written
output path silently overwrites it (last writer wins). -/
theorem C10_duplicate_copies (fs : List (List Char × List Char))
    (target f outDir : List Char) (linked assets : List (List Char))
    (ws : List (List Char × List Char)) (k v : List Char)
    (hne : pathName f ≠ pathName target) :
    planOutputs target [f, f] [] = [pathName target, pathName f, disambOf f] ∧
    planOutputs target [target] [] = [pathName target, disambOf target] ∧
    (copy_files_to_output fs target linked assets outDir).length =
      1 + linked.length + assets.length ∧
    dirAfter (ws ++ [(k, v)]) k = some v := by
  refine ⟨?_, ?_, ?_, ?_⟩
  · simp only [planOutputs, planPairs]
    rw [if_neg (by simp [hne]), if_pos (by simp)]
    simp
  · simp only [planOutputs, planPairs]
    rw [if_pos (by simp)]
    simp
  · rw [copy_writes_shape]
    simp [planPairs_length]
    omega
  · simp [dirAfter, lookupFile, List.reverse_append]

/-- C10 witness: `v/x.md` linked twice yields copies `x.md` and `x_v.md`;
three same-named files from parents all named `a` collide on `x_a.md` and
the last write wins in the final directory. -/
theorem C10_witness :
    planOutputs "t.md".data ["v/x.md".data, "v/x.md".data] [] =
      ["t.md".data, "x.md".data, "x_v.md".data] ∧
    dirAfter (copy_files_to_output
        [("t.md".data, "T".data), ("a/x.md".data, "c1".data),
         ("b/a/x.md".data, "c2".data), ("c/a/x.md".data, "c3".data)]
        "t.md".data ["a/x.md".data, "b/a/x.md".data, "c/a/x.md".data] [] "o".data)
      "o/x_a.md".data = some "c3".data := by
  constructor
  · exact ((C10_duplicate_copies [] "t.md".data "v/x.md".data "o".data [] [] [] [] []
      (by decide)).1).trans (by decide)
  · decide

/-- C1 counterexample: output filenames are not pairwise unique in general —
the single-pass disambiguation re-produces an already-claimed name when
the same file (same filename, same parent directory name) is resolved a
third time, and the copy proceeds anyway. -/
theorem C1_counterexample :
    ¬ (planOutputs "t.md".data
        ["a/x.md".data, "a/x.md".data, "a/x.md".data] []).Nodup := by
  decide

/-- C1 (amended): the target file's own filename is claimed first and the
target is always copied first under its original name; the output
filenames of one run are pairwise unique provided every single-pass
disambiguated name `{stem}_{parent}` is distinct from the target's
filename, from every resolved file's bare filename, and from every other
resolved file's disambiguated name (without this proviso a second
collision on a disambiguated name is not re-disambiguated). -/
theorem C1_plan_unique (fs : List (List Char × List Char))
    (target outDir : List Char) (linked assets : List (List Char))
    (hT : ∀ p ∈ linked ++ assets, disambOf p ≠ pathName target)
    (hB : ∀ p ∈ linked ++ assets, ∀ q ∈ linked ++ assets, disambOf p ≠ pathName q)
    (hD : ((linked ++ assets).map disambOf).Nodup) :
    (planOutputs target linked assets).Nodup ∧
    (planOutputs target linked assets).head? = some (pathName target) ∧
    (copy_files_to_output fs target linked assets outDir).head? =
      some (joinPath outDir (pathName target), (lookupFile fs target).getD []) := by
  have hmap : ((linked.map disambOf) ++ (assets.map disambOf)).Nodup := by
    rw [← List.map_append]; exact hD
  rw [List.nodup_append] at hmap
  obtain ⟨hD1, hD2, hDdisj⟩ := hmap
  have h1 := planPairs_nodup linked [pathName target]
    (fun p hp hmem => hT p (List.mem_append_left _ hp) (List.mem_singleton.mp hmem))
    (fun p hp q hq => hB p (List.mem_append_left _ hp) q (List.mem_append_left _ hq))
    hD1
  have h2 := planPairs_nodup assets (planPairs linked [pathName target]).2
    ?hu2
    (fun p hp q hq => hB p (List.mem_append_right _ hp) q (List.mem_append_right _ hq))
    hD2
  case hu2 =>
    intro p hp hmem
    rcases planPairs_mem_used linked [pathName target] _ hmem with h | ⟨q, hq, hcase⟩
    · exact hT p (List.mem_append_right _ hp) (List.mem_singleton.mp h)
    · rcases hcase with h | h
      · exact hB p (List.mem_append_right _ hp) q (List.mem_append_left _ hq) h
      · exact hDdisj (List.mem_map_of_mem disambOf hq)
          (h ▸ List.mem_map_of_mem disambOf hp)
  obtain ⟨hnd1, hni1⟩ := h1
  obtain ⟨hnd2, hni2⟩ := h2
  refine ⟨?_, by simp [planOutputs], by simp [copy_files_to_output]⟩
  simp only [planOutputs]
  have hshape :
      (pathName target :: List.map Prod.snd (planPairs linked [pathName target]).1) ++
        List.map Prod.snd (planPairs assets (planPairs linked [pathName target]).2).1 =
      pathName target :: (List.map Prod.snd (planPairs linked [pathName target]).1 ++
        List.map Prod.snd (planPairs assets (planPairs linked [pathName target]).2).1) := by
    simp
  rw [hshape, List.nodup_cons]
  constructor
  · intro hmem
    rcases List.mem_append.mp hmem with h | h
    · exact hni1 _ h (List.mem_singleton.mpr rfl)
    · exact hni2 _ h
        (planPairs_used_subset linked [pathName target] _ (List.mem_singleton.mpr rfl))
  · rw [List.nodup_append]
    refine ⟨hnd1, hnd2, ?_⟩
    intro a ha1 ha2
    have hmem : a ∈ (planPairs linked [pathName target]).2 := by
      rcases List.mem_map.mp ha1 with ⟨pr, hpr, hpa⟩
      exact hpa ▸ planPairs_outs_in_used linked _ pr hpr
    exact hni2 a ha2 hmem

/-- C1 witness: a linked file and an asset with fresh names — the plan is
duplicate-free, the target's name heads it, and the first copy writes the
target under its own name. -/
theorem C1_witness :
    (planOutputs "note.md".data ["v/a.md".data] ["v/pic.png".data]).Nodup ∧
    (planOutputs "note.md".data ["v/a.md".data] ["v/pic.png".data]).head? =
      some "note.md".data ∧
    (copy_files_to_output [] "note.md".data ["v/a.md".data] ["v/pic.png".data]
      "o".data).head? = some ("o/note.md".data, ([] : List Char)) := by
  have h := C1_plan_unique [] "note.md".data "o".data ["v/a.md".data]
    ["v/pic.png".data] (by decide) (by decide) (by decide)
  exact ⟨h.1, h.2.1.trans (by decide), h.2.2.trans (by decide)⟩

/-- C8: the export is deterministic in its inputs — two completed runs from
the same filesystem state and target file into any two output directories
produce the same summary and the same relative (filename, content) write
sequence, so fresh empty output directories end up byte-identical. -/
theorem C8_deterministic (fs : List (List Char × List Char))
    (target d1 d2 : List Char) (s1 s2 : Summary)
    (w1 w2 : List (List Char × List Char)) (dirs1 dirs2 : List (List Char))
    (h1 : runMain fs target d1 = (.completed s1 w1, dirs1))
    (h2 : runMain fs target d2 = (.completed s2 w2, dirs2)) :
    s1 = s2 ∧
    ∃ rel : List (List Char × List Char),
      w1 = rel.map (fun pr => (joinPath d1 pr.1, pr.2)) ∧
      w2 = rel.map (fun pr => (joinPath d2 pr.1, pr.2)) := by
  by_cases hn : (lookupFile fs target).isNone = true
  · rw [runMain, if_pos hn] at h1
    exact absurd h1 (by simp)
  · by_cases hs : lowerC (suffixName target) ≠ ['.', 'm', 'd']
    · rw [runMain, if_neg hn, if_pos hs] at h1
      exact absurd h1 (by simp)
    · rw [runMain, if_neg hn, if_neg hs] at h1
      rw [runMain, if_neg hn, if_neg hs] at h2
      simp only [copy_writes_shape, Prod.mk.injEq, RunResult.completed.injEq] at h1 h2
      obtain ⟨⟨hs1, hw1⟩, -⟩ := h1
      obtain ⟨⟨hs2, hw2⟩, -⟩ := h2
      constructor
      · rw [← hs1, ← hs2]
      · exact ⟨_, hw1.symm, hw2.symm⟩

/-- C2 counterexample: the document `[[t]]![a](u)` has one well-formed
wiki-link and one well-formed image (`M = 1`), yet the markdown/image
extraction returns the image url twice: the plain-link pattern, whose
look-behind knows nothing of wiki syntax, starts a match at the wiki
link's `[` and captures the image's url a second time. -/
theorem C2_counterexample :
    countWiki [Elem.wiki "t".data, Elem.image "a".data "u".data] = 1 ∧
    countMd [Elem.wiki "t".data, Elem.image "a".data "u".data] = 1 ∧
    imageFindAllAux (render [Elem.wiki "t".data, Elem.image "a".data "u".data]) ++
      plainFindAllAux none (render [Elem.wiki "t".data, Elem.image "a".data "u".data]) =
      ["u".data, "u".data] := by
  refine ⟨by decide, by decide, ?_⟩
  simp [render, renderElem, imageFindAllAux, plainFindAllAux, linkCapture, scanParen]

/-- C2 (amended): on a well-formed document (clean link payloads and every
wiki link followed by a newline), wiki extraction returns exactly the `N`
wiki targets in source order, and markdown/image extraction returns
exactly the `M` urls with duplicates preserved — but ordered as all image
urls in source order followed by all plain-link urls in source order
(`image_matches + asset_matches`), not in document order. -/
theorem C2_extraction_counts (doc : List Elem) (h : wfDoc doc = true) :
    wikiFindAllAux (render doc) = wikiTargets doc ∧
    (wikiFindAllAux (render doc)).length = countWiki doc ∧
    imageFindAllAux (render doc) ++ plainFindAllAux none (render doc) =
      imageUrls doc ++ linkUrls doc ∧
    (imageFindAllAux (render doc) ++ plainFindAllAux none (render doc)).length =
      countMd doc := by
  have h1 := wikiPass doc h
  have h2 := imagePass doc h
  have h3 := plainPass doc h none (by simp)
  refine ⟨h1, by rw [h1]; rfl, by rw [h2, h3], ?_⟩
  rw [h2, h3, countMd, List.length_append]

/-- C2 witness: a document with one wiki link, one image and one plain
link, extracted exactly. -/
theorem C2_witness :
    wikiFindAllAux (render [Elem.text "see ".data, Elem.wiki "Note".data,
        Elem.text "\nand ".data, Elem.image "img".data "pic.png".data,
        Elem.link "doc".data "file.pdf".data]) =
      wikiTargets [Elem.text "see ".data, Elem.wiki "Note".data,
        Elem.text "\nand ".data, Elem.image "img".data "pic.png".data,
        Elem.link "doc".data "file.pdf".data] ∧
    (wikiFindAllAux (render [Elem.text "see ".data, Elem.wiki "Note".data,
        Elem.text "\nand ".data, Elem.image "img".data "pic.png".data,
        Elem.link "doc".data "file.pdf".data])).length =
      countWiki [Elem.text "see ".data, Elem.wiki "Note".data,
        Elem.text "\nand ".data, Elem.image "img".data "pic.png".data,
        Elem.link "doc".data "file.pdf".data] ∧
    imageFindAllAux (render [Elem.text "see ".data, Elem.wiki "Note".data,
        Elem.text "\nand ".data, Elem.image "img".data "pic.png".data,
        Elem.link "doc".data "file.pdf".data]) ++
      plainFindAllAux none (render [Elem.text "see ".data, Elem.wiki "Note".data,
        Elem.text "\nand ".data, Elem.image "img".data "pic.png".data,
        Elem.link "doc".data "file.pdf".data]) =
      imageUrls [Elem.text "see ".data, Elem.wiki "Note".data,
        Elem.text "\nand ".data, Elem.image "img".data "pic.png".data,
        Elem.link "doc".data "file.pdf".data] ++
      linkUrls [Elem.text "see ".data, Elem.wiki "Note".data,
        Elem.text "\nand ".data, Elem.image "img".data "pic.png".data,
        Elem.link "doc".data "file.pdf".data] ∧
    (imageFindAllAux (render [Elem.text "see ".data, Elem.wiki "Note".data,
        Elem.text "\nand ".data, Elem.image "img".data "pic.png".data,
        Elem.link "doc".data "file.pdf".data]) ++
      plainFindAllAux none (render [Elem.text "see ".data, Elem.wiki "Note".data,
        Elem.text "\nand ".data, Elem.image "img".data "pic.png".data,
        Elem.link "doc".data "file.pdf".data])).length =
      countMd [Elem.text "see ".data, Elem.wiki "Note".data,
        Elem.text "\nand ".data, Elem.image "img".data "pic.png".data,
        Elem.link "doc".data "file.pdf".data] :=
  C2_extraction_counts _ (by decide)

/-- C8 witness: the same input state exported into `o1` and into `o2`
yields the same relative write sequence. -/
theorem C8_witness :
    ∃ rel : List (List Char × List Char),
      [(joinPath "o1".data "n.md".data, ([] : List Char))] =
        rel.map (fun pr => (joinPath "o1".data pr.1, pr.2)) ∧
      [(joinPath "o2".data "n.md".data, ([] : List Char))] =
        rel.map (fun pr => (joinPath "o2".data pr.1, pr.2)) := by
  have hrun : ∀ d : List Char, runMain [("n.md".data, [])] "n.md".data d =
      (.completed ⟨0, 0⟩ [(joinPath d "n.md".data, [])], [d]) := by
    intro d
    rw [runMain, if_neg (by decide), if_neg (by decide)]
    have hl : lookupFile [("n.md".data, [])] "n.md".data = some [] := by decide
    have hp : pathName "n.md".data = "n.md".data := by decide
    simp [find_linked_files, find_asset_references, copy_files_to_output, planPairs,
      collectResolved, wikiFindAllAux, imageFindAllAux, plainFindAllAux, hl, hp]
  exact (C8_deterministic [("n.md".data, [])] "n.md".data "o1".data "o2".data
    _ _ _ _ _ _ (hrun "o1".data) (hrun "o2".data)).2
